import Mathlib

/-!
Shallow embedding of the prime-generation core of `find-big-prime`
(src/main.rs): the Miller-Rabin tester `is_probable_prime`, the trial
division prefilter `small_prime_precheck`, the decomposition
`factor_out_twos`, the inclusive sampler `random_range`, and the two
generators `generate_probable_prime` / `generate_safe_prime`.

Arbitrary-precision integers (`BigUint`) are embedded as `Nat`.  The OS
entropy source is embedded as a finite trace of raw draws (`List Nat`);
quantifying over all traces quantifies over all possible random
behaviours of the program.  The unbounded retry loops of the two
generators and the `while` loop of `factor_out_twos` are embedded with
explicit fuel, so that non-termination is observable as `none` /
`outOfFuel` for every fuel value.
-/

namespace FindBigPrime

/-- Model of the OS RNG: a finite trace of raw draws; an exhausted trace
yields 0.  Each invocation of the entropy source consumes the head. -/
abbrev Rng := List Nat

/-- One raw draw from the entropy source. -/
def rngNext : Rng → Nat × Rng
  | [] => (0, [])
  | v :: r => (v, r)

/-- Modelled contract of the external collaborator
`RandBigInt::gen_biguint(bits)`: a uniform draw from `[0, 2^bits)`.  The
raw draw is reduced modulo `2^bits`, so over all traces the result
ranges over exactly that interval. -/
def gen_biguint (bits : Nat) (rng : Rng) : Nat × Rng :=
  ((rngNext rng).1 % 2 ^ bits, (rngNext rng).2)

/-- Modelled contract of the external collaborator
`RandBigInt::gen_biguint_range(low, highExclusive)`: a uniform draw from
`[low, highExclusive)`.  The raw draw is reduced into the interval, so
over all traces the result ranges over exactly that interval. -/
def gen_biguint_range (low highEx : Nat) (rng : Rng) : Nat × Rng :=
  (low + (rngNext rng).1 % (highEx - low), (rngNext rng).2)

/-- Embedding of `random_range` (src/main.rs:138-144): sample from the
inclusive range `[low, high]`; when `low == high` return `low` without
touching the RNG. -/
def random_range (low high : Nat) (rng : Rng) : Nat × Rng :=
  if low = high then (low, rng)
  else gen_biguint_range low (high + 1) rng

/-- The fixed small-prime list `SMALLS` of `small_prime_precheck`
(src/main.rs:148-150). -/
def SMALLS : List Nat := [3, 5, 7, 11, 13, 17, 19, 23, 29, 31, 37, 41, 43, 47, 53, 59]

/-- The `for` loop of `small_prime_precheck` (src/main.rs:156-164):
accept on equality with a listed prime, reject on divisibility,
otherwise continue down the list; accept when the list is exhausted. -/
def precheckLoop (n : Nat) : List Nat → Bool
  | [] => true
  | p :: ps => if n = p then true else if n % p = 0 then false else precheckLoop n ps

/-- Embedding of `small_prime_precheck` (src/main.rs:147-167). -/
def small_prime_precheck (n : Nat) : Bool :=
  if n = 1 then false else precheckLoop n SMALLS

/-- Square-and-multiply loop embedding the external collaborator
`BigUint::modpow`.  The fuel argument only bounds the recursion; the
loop exits as soon as the exponent reaches 0, and `modpow` passes the
exponent itself as fuel, which always suffices. -/
def modpowLoop (n : Nat) : Nat → Nat → Nat → Nat → Nat
  | 0, acc, _, _ => acc
  | fuel + 1, acc, b, e =>
    if e = 0 then acc
    else modpowLoop n fuel (if e % 2 = 1 then acc * b % n else acc) (b * b % n) (e / 2)

/-- Modelled contract of `BigUint::modpow(b, e, n)`: `b ^ e % n`,
computed by binary exponentiation (`modpowLoop_eq` proves the
functional characterisation). -/
def modpow (b e n : Nat) : Nat := modpowLoop n e (1 % n) (b % n) e

/-- The `while d.is_even()` loop of `factor_out_twos`
(src/main.rs:130-133), with explicit fuel: `none` means the loop has
not exited within `fuel` iterations. -/
def factorLoop : Nat → Nat → Nat → Option (Nat × Nat)
  | 0, _, _ => none
  | fuel + 1, s, d => if d % 2 = 0 then factorLoop fuel (s + 1) (d / 2) else some (s, d)

/-- Embedding of `factor_out_twos` (src/main.rs:127-135).  The fuel
`n + 1` is sufficient for every `n ≥ 1` (`factor_out_twos_eq_some`); for
`n = 0` the source loop never exits, and correspondingly `factorLoop`
returns `none` for every fuel (`factorLoop_zero`). -/
def factor_out_twos (n : Nat) : Option (Nat × Nat) := factorLoop (n + 1) 0 n

/-- The source `while` loop of `factor_out_twos` runs forever on input
`n`: no amount of fuel makes it exit. -/
def divergesAt (n : Nat) : Prop := ∀ fuel s, factorLoop fuel s n = none

/-- The inner squaring loop `for _ in 1..s` of `is_probable_prime`
(src/main.rs:110-118), run for `k = s - 1` iterations: repeatedly square
`x` modulo `n`; seeing `n-1` proves the trial inconclusive (true),
seeing `1` first proves `n` composite (false), and exhausting the loop
also returns false (src/main.rs:120). -/
def squaringsLoop (n nm1 : Nat) : Nat → Nat → Bool
  | 0, _ => false
  | k + 1, x =>
    let y := modpow x 2 n
    if y = nm1 then true
    else if y = 1 then false
    else squaringsLoop n nm1 k y

/-- One Miller-Rabin trial of `is_probable_prime` (src/main.rs:103-120)
with witness `a`, where `n - 1 = d * 2^s`: compute `x = a^d mod n`,
accept immediately on `1` or `n-1`, otherwise run the squaring loop
`s - 1` times. -/
def millerRabinTrial (n s d a : Nat) : Bool :=
  let x := modpow a d n
  if x = 1 ∨ x = n - 1 then true
  else squaringsLoop n (n - 1) (s - 1) x

/-- The `'witness` loop of `is_probable_prime` (src/main.rs:102-121):
each round draws a witness via `random_range(2, n-1)` and runs one
trial; a failing trial returns false immediately, and surviving all
rounds returns true. -/
def witnessLoop (n s d : Nat) : Nat → Rng → Bool × Rng
  | 0, rng => (true, rng)
  | r + 1, rng =>
    let aw := random_range 2 (n - 1) rng
    if millerRabinTrial n s d aw.1 then witnessLoop n s d r aw.2
    else (false, aw.2)

/-- Embedding of `is_probable_prime` (src/main.rs:84-124).  The `getD`
default is unreachable: this branch has `n` odd with `n ≥ 3`, so
`n - 1 ≥ 2` and `factor_out_twos (n - 1)` is always `some`. -/
def is_probable_prime (n rounds : Nat) (rng : Rng) : Bool × Rng :=
  if n < 2 then (false, rng)
  else if n = 2 then (true, rng)
  else if n % 2 = 0 then (false, rng)
  else
    let sd := (factor_out_twos (n - 1)).getD (0, 0)
    witnessLoop n sd.1 sd.2 rounds rng

/-- Result of a generator run: a returned value together with the
remaining RNG trace, a fatal assertion failure, or fuel exhaustion of
the (in the source, unbounded) retry loop. -/
inductive Outcome where
  | ok (p : Nat) (rng : Rng)
  | assertFail
  | outOfFuel
deriving DecidableEq

/-- The candidate conditioning of `generate_probable_prime`
(src/main.rs:54-58) applied to the drawn value `v`: force the top bit
(`set_bit(bits-1, true)` is bitwise or with `2^(bits-1)`), then force
oddness by setting the lowest bit when the value is even. -/
def buildCandidate (bits v : Nat) : Nat :=
  let n0 := v ||| 2 ^ (bits - 1)
  if n0 % 2 = 0 then n0 ||| 1 else n0

/-- Embedding of `generate_probable_prime` (src/main.rs:47-68): draw a
`bits`-bit candidate, condition it via `buildCandidate`, then filter
through `small_prime_precheck` and `is_probable_prime`, retrying on
failure.  The source function performs no check on `bits`. -/
def generate_probable_prime (bits rounds : Nat) : Nat → Rng → Outcome
  | 0, _ => .outOfFuel
  | fuel + 1, rng =>
    let v := gen_biguint bits rng
    let n := buildCandidate bits v.1
    if small_prime_precheck n then
      if (is_probable_prime n rounds v.2).1 then .ok n (is_probable_prime n rounds v.2).2
      else generate_probable_prime bits rounds fuel (is_probable_prime n rounds v.2).2
    else generate_probable_prime bits rounds fuel v.2

/-- The retry loop of `generate_safe_prime` (src/main.rs:74-80): find a
candidate `q` of `bits - 1` bits, form `p = 2q + 1` (the source shift
`q << 1` plus one), test `p`, and on failure restart with a fresh `q`. -/
def safePrimeLoop (bits rounds fuelInner : Nat) : Nat → Rng → Outcome
  | 0, _ => .outOfFuel
  | fuel + 1, rng =>
    match generate_probable_prime (bits - 1) rounds fuelInner rng with
    | .ok q rng1 =>
      if (is_probable_prime (2 * q + 1) rounds rng1).1 then
        .ok (2 * q + 1) (is_probable_prime (2 * q + 1) rounds rng1).2
      else safePrimeLoop bits rounds fuelInner fuel (is_probable_prime (2 * q + 1) rounds rng1).2
    | .assertFail => .assertFail
    | .outOfFuel => .outOfFuel

/-- Embedding of `generate_safe_prime` (src/main.rs:71-81), including
its `assert!(bits >= 3)`: the assertion failure is a distinguished
fatal outcome. -/
def generate_safe_prime (bits rounds fuelInner fuelOuter : Nat) (rng : Rng) : Outcome :=
  if bits < 3 then .assertFail else safePrimeLoop bits rounds fuelInner fuelOuter rng

/-- Embedding of the `main` shell (src/main.rs:28-44) minus printing:
`assert!(bits >= 512)` precedes any call into the core, then the `safe`
flag selects the generator. -/
def main_run (bits rounds : Nat) (safe : Bool) (fuelInner fuelOuter : Nat) (rng : Rng) : Outcome :=
  if bits < 512 then .assertFail
  else if safe then generate_safe_prime bits rounds fuelInner fuelOuter rng
  else generate_probable_prime bits rounds fuelInner rng

/-- The value a generator run has produced passed the Miller-Rabin test
with the given round count on some witness trace (in particular on the
very draws of the producing run). -/
def passesMR (p rounds : Nat) : Prop :=
  ∃ tr tr2 : Rng, is_probable_prime p rounds tr = (true, tr2)

/-- The value `p` arose as `2 * q + 1` from a `q` that
`generate_probable_prime` returned at the given bit length. -/
def foundViaProbable (bits rounds p : Nat) : Prop :=
  ∃ fuel q rg rg1, generate_probable_prime bits rounds fuel rg = .ok q rg1 ∧ p = 2 * q + 1

/-! ### Functional characterisation of `modpow` -/

theorem modpowLoop_eq (n : Nat) (hn : 1 ≤ n) :
    ∀ fuel e acc b, e ≤ fuel → acc < n →
      modpowLoop n fuel acc b e = acc * b ^ e % n := by
  intro fuel
  induction fuel with
  | zero =>
    intro e acc b he ha
    have h0 : e = 0 := by omega
    subst h0
    simp [modpowLoop, Nat.mod_eq_of_lt ha]
  | succ f ih =>
    intro e acc b he ha
    by_cases h0 : e = 0
    · subst h0
      simp [modpowLoop, Nat.mod_eq_of_lt ha]
    · rw [modpowLoop, if_neg h0]
      have hdiv : e / 2 ≤ f := by omega
      have ha2 : (if e % 2 = 1 then acc * b % n else acc) < n := by
        split
        · exact Nat.mod_lt _ (by omega)
        · exact ha
      rw [ih (e / 2) _ (b * b % n) hdiv ha2]
      have hsplit : 2 * (e / 2) + e % 2 = e := Nat.div_add_mod e 2
      have hbb : (b * b % n) ^ (e / 2) % n = (b * b) ^ (e / 2) % n := (Nat.pow_mod _ _ _).symm
      rcases Nat.mod_two_eq_zero_or_one e with hpar | hpar
      · rw [if_neg (by omega)]
        rw [Nat.mul_mod, hbb, ← Nat.mul_mod]
        have : (b * b) ^ (e / 2) = b ^ e := by
          rw [← pow_two, ← pow_mul]
          congr 1
          omega
        rw [this]
      · rw [if_pos hpar]
        rw [Nat.mul_mod, hbb, ← Nat.mul_mod, Nat.mod_mul_mod]
        have : acc * b * (b * b) ^ (e / 2) = acc * b ^ e := by
          rw [← pow_two, ← pow_mul, mul_assoc, ← pow_succ']
          congr 2
          omega
        rw [this]

theorem modpow_eq (b e n : Nat) (hn : 2 ≤ n) : modpow b e n = b ^ e % n := by
  rw [modpow, modpowLoop_eq n (by omega) e e (1 % n) (b % n) le_rfl
    (Nat.mod_lt _ (by omega))]
  rw [Nat.mod_eq_of_lt (show 1 < n by omega), one_mul, ← Nat.pow_mod]

/-! ### `factor_out_twos` -/

theorem factorLoop_zero : ∀ fuel s, factorLoop fuel s 0 = none := by
  intro fuel
  induction fuel with
  | zero => intro s; rfl
  | succ f ih => intro s; simp [factorLoop, ih]

theorem factorLoop_sound :
    ∀ fuel d s, 1 ≤ d → d ≤ fuel →
      ∃ sf df, factorLoop fuel s d = some (sf, df) ∧ df % 2 = 1 ∧ s ≤ sf ∧
        df * 2 ^ (sf - s) = d := by
  intro fuel
  induction fuel with
  | zero => intro d s h1 hle; omega
  | succ f ih =>
    intro d s h1 hle
    by_cases hev : d % 2 = 0
    · obtain ⟨sf, df, heq, hodd, hge, hmul⟩ := ih (d / 2) (s + 1) (by omega) (by omega)
      refine ⟨sf, df, ?_, hodd, by omega, ?_⟩
      · rw [factorLoop, if_pos hev, heq]
      · have hstep : sf - s = (sf - (s + 1)) + 1 := by omega
        rw [hstep, pow_succ, ← mul_assoc, hmul]
        omega
    · exact ⟨s, d, by rw [factorLoop, if_neg hev], by omega, le_rfl, by simp⟩

theorem factor_out_twos_eq_some (n : Nat) (h : 1 ≤ n) :
    ∃ s d, factor_out_twos n = some (s, d) ∧ d % 2 = 1 ∧ d * 2 ^ s = n := by
  obtain ⟨sf, df, heq, hodd, _, hmul⟩ := factorLoop_sound (n + 1) n 0 h (by omega)
  exact ⟨sf, df, heq, hodd, by simpa using hmul⟩

/-! ### `random_range` bounds -/

theorem random_range_bounds (low high : Nat) (rng : Rng) (h : low ≤ high) :
    low ≤ (random_range low high rng).1 ∧ (random_range low high rng).1 ≤ high := by
  rw [random_range]
  split
  · simp_all
  · rw [gen_biguint_range]
    have hlt : (rngNext rng).1 % (high + 1 - low) < high + 1 - low :=
      Nat.mod_lt _ (by omega)
    exact ⟨Nat.le_add_right _ _, by omega⟩

/-! ### Bitwise facts about the candidate construction -/

theorem two_pow_le_or (a i : Nat) : 2 ^ i ≤ a ||| 2 ^ i := by
  refine Nat.testBit_implies_ge ?_
  simp [Nat.testBit_or, Nat.testBit_two_pow_self]

theorem two_pow_le_or_or (a b i : Nat) : 2 ^ i ≤ (a ||| 2 ^ i) ||| b := by
  refine Nat.testBit_implies_ge ?_
  simp [Nat.testBit_or, Nat.testBit_two_pow_self]

theorem or_one_odd (a : Nat) : (a ||| 1) % 2 = 1 := by
  rw [Nat.mod_two_eq_one_iff_testBit_zero]
  simp [Nat.testBit_or, Nat.testBit_one_zero]

/-! ### Casting helpers -/

theorem cast_inj_of_lt {n u v : Nat} (hu : u < n) (hv : v < n)
    (h : (u : ZMod n) = (v : ZMod n)) : u = v := by
  have h2 := congrArg ZMod.val h
  rwa [ZMod.val_cast_of_lt hu, ZMod.val_cast_of_lt hv] at h2

theorem natCast_pred_eq_neg_one {n : Nat} (h : 1 ≤ n) : ((n - 1 : Nat) : ZMod n) = -1 := by
  rw [Nat.cast_sub h, Nat.cast_one, ZMod.natCast_self]
  ring

/-! ### Miller-Rabin never rejects a prime -/

theorem squaringsLoop_of_prime (n : Nat) (hp : n.Prime) (h3 : 3 ≤ n) :
    ∀ k x, x < n → ((x : ZMod n)) ^ 2 ^ (k + 1) = 1 → ((x : ZMod n)) ≠ 1 →
      ((x : ZMod n)) ≠ -1 → squaringsLoop n (n - 1) k x = true := by
  haveI : Fact n.Prime := ⟨hp⟩
  intro k
  induction k with
  | zero =>
    intro x hx hpow h1 hm1
    exfalso
    simp only [Nat.zero_add, pow_one] at hpow
    rw [pow_two] at hpow
    rcases mul_self_eq_one_iff.mp hpow with h | h
    · exact h1 h
    · exact hm1 h
  | succ k ih =>
    intro x hx hpow h1 hm1
    have hmp : modpow x 2 n = x * x % n := by
      rw [modpow_eq _ _ _ (by omega), pow_two]
    have hyn : x * x % n < n := Nat.mod_lt _ (by omega)
    have hycast : ((x * x % n : Nat) : ZMod n) = (x : ZMod n) * x := by
      rw [ZMod.natCast_mod, Nat.cast_mul]
    rw [squaringsLoop]
    simp only [hmp]
    split
    · rfl
    · rename_i hne
      split
      · rename_i hy1
        exfalso
        have hsq : (x : ZMod n) * x = 1 := by
          rw [← hycast, hy1, Nat.cast_one]
        rcases mul_self_eq_one_iff.mp hsq with h | h
        · exact h1 h
        · exact hm1 h
      · rename_i hy1
        apply ih (x * x % n) hyn
        · rw [hycast, ← pow_two, ← pow_mul]
          have hexp : 2 * 2 ^ (k + 1) = 2 ^ (k + 1 + 1) := (pow_succ' 2 (k + 1)).symm
          rw [hexp]
          exact hpow
        · intro hcon
          rw [show (1 : ZMod n) = ((1 : Nat) : ZMod n) by simp] at hcon
          exact hy1 (cast_inj_of_lt hyn (by omega) hcon)
        · intro hcon
          rw [← natCast_pred_eq_neg_one (show 1 ≤ n by omega)] at hcon
          exact hne (cast_inj_of_lt hyn (by omega) hcon)

theorem millerRabinTrial_of_prime (n s d a : Nat) (hp : n.Prime) (h3 : 3 ≤ n)
    (hd : d % 2 = 1) (hsd : d * 2 ^ s = n - 1) (ha2 : 2 ≤ a) (han : a ≤ n - 1) :
    millerRabinTrial n s d a = true := by
  haveI : Fact n.Prime := ⟨hp⟩
  have hodd : n % 2 = 1 := Nat.odd_iff.mp (hp.odd_of_ne_two (by omega))
  have hs1 : 1 ≤ s := by
    rcases Nat.eq_zero_or_pos s with h0 | h
    · exfalso
      subst h0
      simp only [pow_zero, mul_one] at hsd
      omega
    · exact h
  have ha0 : (a : ZMod n) ≠ 0 := by
    intro h
    rw [ZMod.natCast_zmod_eq_zero_iff_dvd] at h
    have := Nat.le_of_dvd (by omega) h
    omega
  have hfer : (a : ZMod n) ^ (n - 1) = 1 := ZMod.pow_card_sub_one_eq_one ha0
  have hmp : modpow a d n = a ^ d % n := modpow_eq _ _ _ (by omega)
  have hxn : a ^ d % n < n := Nat.mod_lt _ (by omega)
  have hxc : ((a ^ d % n : Nat) : ZMod n) = (a : ZMod n) ^ d := by
    rw [ZMod.natCast_mod, Nat.cast_pow]
  rw [millerRabinTrial]
  simp only [hmp]
  split
  · rfl
  · rename_i hx1
    push_neg at hx1
    apply squaringsLoop_of_prime n hp h3 (s - 1) (a ^ d % n) hxn
    · rw [hxc, ← pow_mul]
      have hrw : d * 2 ^ (s - 1 + 1) = n - 1 := by
        rw [show s - 1 + 1 = s by omega]
        exact hsd
      rw [hrw]
      exact hfer
    · intro hcon
      rw [show (1 : ZMod n) = ((1 : Nat) : ZMod n) by simp] at hcon
      exact hx1.1 (cast_inj_of_lt hxn (by omega) hcon)
    · intro hcon
      rw [← natCast_pred_eq_neg_one (show 1 ≤ n by omega)] at hcon
      exact hx1.2 (cast_inj_of_lt hxn (by omega) hcon)

theorem witnessLoop_of_prime (n s d : Nat) (hp : n.Prime) (h3 : 3 ≤ n)
    (hd : d % 2 = 1) (hsd : d * 2 ^ s = n - 1) :
    ∀ rounds rng, (witnessLoop n s d rounds rng).1 = true := by
  intro rounds
  induction rounds with
  | zero => intro rng; rfl
  | succ r ih =>
    intro rng
    have hb := random_range_bounds 2 (n - 1) rng (by omega)
    rw [witnessLoop]
    simp only [if_pos (millerRabinTrial_of_prime n s d _ hp h3 hd hsd hb.1 hb.2)]
    exact ih _

/-! ### Generator correctness -/

theorem buildCandidate_shape (bits v : Nat) (hb : 1 ≤ bits) (hv : v < 2 ^ bits) :
    2 ^ (bits - 1) ≤ buildCandidate bits v ∧ buildCandidate bits v < 2 ^ bits ∧
      buildCandidate bits v % 2 = 1 := by
  have hpow : 2 ^ (bits - 1) < 2 ^ bits := by
    have h2 : 2 ^ bits = 2 * 2 ^ (bits - 1) := by
      rw [← pow_succ']
      congr 1
      omega
    have hpos : 0 < 2 ^ (bits - 1) := Nat.two_pow_pos _
    omega
  have hone : 1 < 2 ^ bits := Nat.one_lt_two_pow (by omega)
  simp only [buildCandidate]
  split
  · exact ⟨two_pow_le_or_or v 1 (bits - 1),
      Nat.or_lt_two_pow (Nat.or_lt_two_pow hv hpow) hone, or_one_odd _⟩
  · rename_i hev
    exact ⟨two_pow_le_or v (bits - 1), Nat.or_lt_two_pow hv hpow, by omega⟩

theorem gpp_ok :
    ∀ (fuel bits rounds p : Nat) (rng rng2 : Rng),
      generate_probable_prime bits rounds fuel rng = .ok p rng2 →
      small_prime_precheck p = true ∧ passesMR p rounds ∧
        (1 ≤ bits → 2 ^ (bits - 1) ≤ p ∧ p < 2 ^ bits ∧ p % 2 = 1) := by
  intro fuel
  induction fuel with
  | zero =>
    intro bits rounds p rng rng2 h
    exact absurd h (by simp [generate_probable_prime])
  | succ f ih =>
    intro bits rounds p rng rng2 h
    simp only [generate_probable_prime] at h
    split at h
    · rename_i hpre
      split at h
      · rename_i hmr
        cases h
        refine ⟨hpre,
          ⟨(gen_biguint bits rng).2,
            (is_probable_prime (buildCandidate bits (gen_biguint bits rng).1) rounds
              (gen_biguint bits rng).2).2, ?_⟩, fun hb => ?_⟩
        · rw [← hmr]
        · refine buildCandidate_shape bits _ hb ?_
          rw [gen_biguint]
          exact Nat.mod_lt _ (Nat.two_pow_pos _)
      · exact ih bits rounds p _ rng2 h
    · exact ih bits rounds p _ rng2 h

theorem gpp_ne_assertFail :
    ∀ (fuel bits rounds : Nat) (rng : Rng),
      generate_probable_prime bits rounds fuel rng ≠ .assertFail := by
  intro fuel
  induction fuel with
  | zero =>
    intro bits rounds rng
    simp [generate_probable_prime]
  | succ f ih =>
    intro bits rounds rng
    simp only [generate_probable_prime]
    split
    · split
      · simp
      · exact ih bits rounds _
    · exact ih bits rounds _

theorem safePrimeLoop_ok :
    ∀ (fo bits rounds fi p : Nat) (rng rng2 : Rng),
      safePrimeLoop bits rounds fi fo rng = .ok p rng2 →
      foundViaProbable (bits - 1) rounds p ∧ passesMR p rounds := by
  intro fo
  induction fo with
  | zero =>
    intro bits rounds fi p rng rng2 h
    exact absurd h (by simp [safePrimeLoop])
  | succ f ih =>
    intro bits rounds fi p rng rng2 h
    rw [safePrimeLoop] at h
    cases hq : generate_probable_prime (bits - 1) rounds fi rng with
    | ok q rng1 =>
      rw [hq] at h
      simp only [] at h
      split at h
      · rename_i hmr
        cases h
        exact ⟨⟨fi, q, rng, rng1, hq, rfl⟩, rng1,
          (is_probable_prime (2 * q + 1) rounds rng1).2, by rw [← hmr]⟩
      · exact ih bits rounds fi p _ rng2 h
    | assertFail =>
      rw [hq] at h
      simp at h
    | outOfFuel =>
      rw [hq] at h
      simp at h

theorem gsp_ok (bits rounds fi fo p : Nat) (rng rng2 : Rng)
    (h : generate_safe_prime bits rounds fi fo rng = .ok p rng2) :
    3 ≤ bits ∧ foundViaProbable (bits - 1) rounds p ∧ passesMR p rounds := by
  rw [generate_safe_prime] at h
  split at h
  · exact absurd h (by simp)
  · rename_i hb
    exact ⟨by omega, safePrimeLoop_ok fo bits rounds fi p rng rng2 h⟩

/-! ### Claims -/

/-- C1: for every `bits ≥ 512` and every positive `rounds`, any value
returned by `generate_probable_prime bits rounds` (on any fuel and any
RNG trace) is odd and has bit length exactly `bits`: its highest set bit
is bit `bits - 1`, i.e. `2^(bits-1) ≤ p < 2^bits`. -/
theorem c1_generate_probable_prime_bits_odd (bits rounds fuel p : Nat) (rng rng2 : Rng)
    (hbits : 512 ≤ bits) (_hrounds : 1 ≤ rounds)
    (h : generate_probable_prime bits rounds fuel rng = .ok p rng2) :
    2 ^ (bits - 1) ≤ p ∧ p < 2 ^ bits ∧ p % 2 = 1 :=
  (gpp_ok fuel bits rounds p rng rng2 h).2.2 (by omega)

set_option maxRecDepth 100000 in
/-- Witness for C1: a concrete successful 512-bit run on the trace
`[10, 2^511 + 8]`, returning `2^511 + 11`. -/
theorem c1_witness :
    512 ≤ 512 ∧ 1 ≤ 1 ∧
      (2 ^ 511 ≤ 2 ^ 511 + 11 ∧ 2 ^ 511 + 11 < 2 ^ 512 ∧ (2 ^ 511 + 11) % 2 = 1) :=
  ⟨by norm_num, by norm_num,
    c1_generate_probable_prime_bits_odd 512 1 1 (2 ^ 511 + 11) [10, 2 ^ 511 + 8] []
      (by norm_num) (by norm_num) (by decide)⟩

/-- C2: for every `bits ≥ 512` and positive `rounds`, any value `p`
returned by `generate_safe_prime bits rounds` has bit length exactly
`bits`, arose as `p = 2q + 1` from a `q` that `generate_probable_prime`
returned at bit length `bits - 1`, and `(p - 1) / 2` passes
`is_probable_prime` with the same `rounds` (on the run's own draws). -/
theorem c2_generate_safe_prime_structure (bits rounds fi fo p : Nat) (rng rng2 : Rng)
    (hbits : 512 ≤ bits) (_hrounds : 1 ≤ rounds)
    (h : generate_safe_prime bits rounds fi fo rng = .ok p rng2) :
    (2 ^ (bits - 1) ≤ p ∧ p < 2 ^ bits) ∧ foundViaProbable (bits - 1) rounds p ∧
      passesMR ((p - 1) / 2) rounds := by
  obtain ⟨h3, hfound, hMR⟩ := gsp_ok bits rounds fi fo p rng rng2 h
  obtain ⟨fq, q, rg, rg1, hq, hpq⟩ := hfound
  have hqspec := (gpp_ok fq (bits - 1) rounds q rg rg1 hq).2
  have hqbits := hqspec.2 (by omega)
  have hb2 : bits - 1 - 1 = bits - 2 := by omega
  rw [hb2] at hqbits
  have hhalf : (p - 1) / 2 = q := by omega
  constructor
  · have e1 : 2 ^ (bits - 1) = 2 * 2 ^ (bits - 2) := by
      rw [← pow_succ']
      congr 1
      omega
    have e2 : 2 ^ bits = 2 * 2 ^ (bits - 1) := by
      rw [← pow_succ']
      congr 1
      omega
    omega
  · exact ⟨⟨fq, q, rg, rg1, hq, hpq⟩, by rw [hhalf]; exact hqspec.1⟩

set_option maxRecDepth 100000 in
/-- Witness for C2: a concrete successful 512-bit safe-prime run on the
trace `[2, 2^510, 2^511 + 4]`, returning `p = 2^511 + 7` with
`q = (p-1)/2 = 2^510 + 3`. -/
theorem c2_witness :
    512 ≤ 512 ∧ 1 ≤ 1 ∧
      ((2 ^ 511 ≤ 2 ^ 511 + 7 ∧ 2 ^ 511 + 7 < 2 ^ 512) ∧
        foundViaProbable 511 1 (2 ^ 511 + 7) ∧ passesMR ((2 ^ 511 + 7 - 1) / 2) 1) :=
  ⟨by norm_num, by norm_num,
    c2_generate_safe_prime_structure 512 1 1 1 (2 ^ 511 + 7) [2, 2 ^ 510, 2 ^ 511 + 4] []
      (by norm_num) (by norm_num) (by decide)⟩

/-- C3: a true prime is never misclassified: for every prime `n`, every
round count and every RNG trace (hence every possible sequence of
witness draws), `is_probable_prime` returns true. -/
theorem c3_prime_never_rejected (n rounds : Nat) (rng : Rng) (hp : n.Prime) :
    (is_probable_prime n rounds rng).1 = true := by
  by_cases h2 : n = 2
  · subst h2
    rw [is_probable_prime]
    norm_num
  · have h3 : 3 ≤ n := by
      have := hp.two_le
      omega
    have hodd : n % 2 = 1 := Nat.odd_iff.mp (hp.odd_of_ne_two h2)
    rw [is_probable_prime, if_neg (by omega), if_neg h2, if_neg (by omega)]
    obtain ⟨s, d, heq, hdodd, hmul⟩ := factor_out_twos_eq_some (n - 1) (by omega)
    rw [heq]
    exact witnessLoop_of_prime n s d hp h3 hdodd hmul rounds rng

/-- Witness for C3 at the prime 7 with 2 rounds on the trace [0, 3]. -/
theorem c3_witness : Nat.Prime 7 ∧ (is_probable_prime 7 2 [0, 3]).1 = true :=
  ⟨by norm_num, c3_prime_never_rejected 7 2 [0, 3] (by norm_num)⟩

/-- C4 counterexample: the claim says the witness is drawn from
`[2, n-2]` and never equals `n - 1`.  But with `n = 9` the draw the code
performs, `random_range 2 (n-1)`, yields `8 = n - 1` on the trace `[6]`,
and the resulting run accepts the composite 9 — while every witness in
the claimed range `[2, 7]` yields a failing trial (`factor_out_twos 8 =
some (3, 1)`, so the trial parameters are `s = 3`, `d = 1`).  The
accepting run therefore used a witness outside `[2, n-2]`. -/
theorem c4_counterexample :
    (random_range 2 (9 - 1) [6]).1 = 9 - 1 ∧
      (is_probable_prime 9 1 [6]).1 = true ∧
      millerRabinTrial 9 3 1 2 = false ∧ millerRabinTrial 9 3 1 3 = false ∧
      millerRabinTrial 9 3 1 4 = false ∧ millerRabinTrial 9 3 1 5 = false ∧
      millerRabinTrial 9 3 1 6 = false ∧ millerRabinTrial 9 3 1 7 = false := by
  decide

/-- C4 amended: each trial draws its witness via `random_range 2 (n-1)`,
so the witness lies in the inclusive range `[2, n-1]` — not `[2, n-2]` —
and every value of that range, including `n - 1` itself, is attainable
by a suitable draw. -/
theorem c4_amended_witness_range (n t : Nat) (rng : Rng) (_h3 : 3 ≤ n)
    (ht2 : 2 ≤ t) (htn : t ≤ n - 1) :
    (2 ≤ (random_range 2 (n - 1) rng).1 ∧ (random_range 2 (n - 1) rng).1 ≤ n - 1) ∧
      (random_range 2 (n - 1) [t - 2]).1 = t := by
  refine ⟨random_range_bounds 2 (n - 1) rng (by omega), ?_⟩
  rw [random_range]
  split
  · omega
  · rename_i hne
    rw [gen_biguint_range]
    show 2 + (t - 2) % (n - 1 + 1 - 2) = t
    have hlt : t - 2 < n - 1 + 1 - 2 := by omega
    rw [Nat.mod_eq_of_lt hlt]
    omega

/-- Witness for the amended C4 at `n = 9`, `t = 8 = n - 1`, trace [5]. -/
theorem c4_amended_witness :
    3 ≤ 9 ∧ 2 ≤ 8 ∧ 8 ≤ 9 - 1 ∧
      ((2 ≤ (random_range 2 (9 - 1) [5]).1 ∧ (random_range 2 (9 - 1) [5]).1 ≤ 9 - 1) ∧
        (random_range 2 (9 - 1) [8 - 2]).1 = 8) :=
  ⟨by norm_num, by norm_num, by norm_num,
    c4_amended_witness_range 9 8 [5] (by norm_num) (by norm_num) (by norm_num)⟩

/-- C5 counterexample: on the trace `[7, 0, 12]`, `generate_safe_prime 4 1`
returns `15` to the caller (`q = 7` is found, `p = 15` survives its one
Miller-Rabin round because the drawn witness is `14 = p - 1`), but
`15 = 3 · 5` fails `small_prime_precheck` — so a value returned as prime
by a generator need not pass the trial-division precheck. -/
theorem c5_counterexample :
    generate_safe_prime 4 1 1 1 [7, 0, 12] = .ok 15 [] ∧
      small_prime_precheck 15 = false := by
  decide

/-- C5 amended: every value returned by `generate_probable_prime` passes
`small_prime_precheck` and passed `is_probable_prime` on the run's own
draws; a value `p` returned by `generate_safe_prime` passed
`is_probable_prime` on the run's own draws and its `(p-1)/2` passes
`small_prime_precheck`, but `p` itself need not pass the precheck. -/
theorem c5_amended_returned_values (bits1 rounds1 fuel1 p1 bits2 rounds2 fi2 fo2 p2 : Nat)
    (rngA rngA2 rngB rngB2 : Rng)
    (h1 : generate_probable_prime bits1 rounds1 fuel1 rngA = .ok p1 rngA2)
    (h2 : generate_safe_prime bits2 rounds2 fi2 fo2 rngB = .ok p2 rngB2) :
    (small_prime_precheck p1 = true ∧ passesMR p1 rounds1) ∧
      (passesMR p2 rounds2 ∧ small_prime_precheck ((p2 - 1) / 2) = true) := by
  have hA := gpp_ok fuel1 bits1 rounds1 p1 rngA rngA2 h1
  obtain ⟨-, hfound, hMR⟩ := gsp_ok bits2 rounds2 fi2 fo2 p2 rngB rngB2 h2
  obtain ⟨fq, q, rg, rg1, hq, hpq⟩ := hfound
  have hqpre := (gpp_ok fq (bits2 - 1) rounds2 q rg rg1 hq).1
  have hhalf : (p2 - 1) / 2 = q := by omega
  exact ⟨⟨hA.1, hA.2.1⟩, hMR, by rw [hhalf]; exact hqpre⟩

/-- Witness for the amended C5: the runs `generate_probable_prime 8 1`
returning 131 and `generate_safe_prime 4 1` returning 15. -/
theorem c5_amended_witness :
    (small_prime_precheck 131 = true ∧ passesMR 131 1) ∧
      (passesMR 15 1 ∧ small_prime_precheck ((15 - 1) / 2) = true) :=
  c5_amended_returned_values 8 1 1 131 4 1 1 1 15 [3, 0] [] [7, 0, 12] []
    (by decide) (by decide)

/-- C6 counterexample: the claim quantifies over every `n`, but at
`n = 0` the `while` loop of `factor_out_twos` never exits (0 is even and
`0 >> 1 = 0`): no fuel makes the loop return, so no pair is returned. -/
theorem c6_counterexample : divergesAt 0 :=
  factorLoop_zero

/-- C6 amended: for every `n ≥ 1` (the only inputs on which the function
returns), `factor_out_twos n` yields `(s, d)` with `d` odd and
`d · 2^s = n`. -/
theorem c6_amended_factor_round_trip (n : Nat) (h : 1 ≤ n) :
    (factor_out_twos n).isSome = true ∧
      ((factor_out_twos n).getD (0, 0)).2 % 2 = 1 ∧
      ((factor_out_twos n).getD (0, 0)).2 * 2 ^ ((factor_out_twos n).getD (0, 0)).1 = n := by
  obtain ⟨s, d, heq, hodd, hmul⟩ := factor_out_twos_eq_some n h
  rw [heq]
  exact ⟨rfl, hodd, hmul⟩

/-- Witness for the amended C6 at `n = 12 = 3 · 2^2`. -/
theorem c6_amended_witness :
    1 ≤ 12 ∧
      ((factor_out_twos 12).isSome = true ∧
        ((factor_out_twos 12).getD (0, 0)).2 % 2 = 1 ∧
        ((factor_out_twos 12).getD (0, 0)).2 * 2 ^ ((factor_out_twos 12).getD (0, 0)).1 = 12) :=
  ⟨by norm_num, c6_amended_factor_round_trip 12 (by norm_num)⟩

/-- C7 counterexample: the claim says either core entry point fails for
`bits < 512`, but `generate_probable_prime` performs no bits check: with
`bits = 8 < 512` it proceeds and returns 131 on the trace `[3, 1]`. -/
theorem c7_counterexample :
    generate_probable_prime 8 1 1 [3, 1] = .ok 131 [] ∧ 8 < 512 := by
  decide

/-- C7 amended: the `bits ≥ 512` assertion lives in the CLI `main`,
which fails fatally for every `bits < 512` before reaching the core;
within the core, `generate_safe_prime` fails fatally for every
`bits < 3`, while `generate_probable_prime` performs no bits check and
never raises an assertion failure for any `bits` whatsoever.  Each
conjunct has its own bit count, so each hypothesis restricts only the
conjunct it is about. -/
theorem c7_amended_assertions (bitsA bitsB bitsC rounds fi fo : Nat) (safe : Bool) (rng : Rng)
    (h512 : bitsA < 512) (h3 : bitsB < 3) :
    main_run bitsA rounds safe fi fo rng = .assertFail ∧
      generate_safe_prime bitsB rounds fi fo rng = .assertFail ∧
      generate_probable_prime bitsC rounds fi rng ≠ .assertFail := by
  refine ⟨?_, ?_, gpp_ne_assertFail fi bitsC rounds rng⟩
  · rw [main_run, if_pos h512]
  · rw [generate_safe_prime, if_pos h3]

/-- Witness for the amended C7: `main` fails at `bits = 100` (a value
in `3 ≤ bits < 512`, where only the shell's assertion stops the run),
`generate_safe_prime` fails at `bits = 2`, and `generate_probable_prime`
does not assert at `bits = 8`. -/
theorem c7_amended_witness :
    main_run 100 1 false 1 1 [] = .assertFail ∧
      generate_safe_prime 2 1 1 1 [] = .assertFail ∧
      generate_probable_prime 8 1 1 [] ≠ .assertFail :=
  c7_amended_assertions 100 2 8 1 1 1 false [] (by norm_num) (by norm_num)

/-- C8: `random_range low low` returns `low` and leaves the RNG state
untouched — the entropy source is never invoked and no draw is
consumed. -/
theorem c8_random_range_degenerate (low : Nat) (rng : Rng) :
    random_range low low rng = (low, rng) := by
  rw [random_range, if_pos rfl]

/-- C9: with `rounds = 0` the witness loop runs zero trials, so
`is_probable_prime n 0` accepts every odd `n ≥ 3` — including odd
composites such as 9 — and leaves the RNG untouched: the code does not
enforce positivity of the round count. -/
theorem c9_zero_rounds_accepts (n : Nat) (rng : Rng) (h3 : 3 ≤ n) (hodd : n % 2 = 1) :
    is_probable_prime n 0 rng = (true, rng) := by
  rw [is_probable_prime, if_neg (by omega), if_neg (by omega), if_neg (by omega)]
  rfl

/-- Witness for C9 at the odd composite 9. -/
theorem c9_witness :
    3 ≤ 9 ∧ 9 % 2 = 1 ∧ is_probable_prime 9 0 [4] = (true, [4]) :=
  ⟨by norm_num, by norm_num, c9_zero_rounds_accepts 9 [4] (by norm_num) (by norm_num)⟩

/-- C10: `factor_out_twos` terminates for every `n ≥ 1` (the fuel `n+1`
of the embedding always suffices and a pair is returned), while at
`n = 0` its loop never exits whatever the fuel: the function is total
only under the precondition `n ≥ 1`. -/
theorem c10_factor_termination (n : Nat) (h : 1 ≤ n) :
    (factor_out_twos n).isSome = true ∧ divergesAt 0 := by
  obtain ⟨s, d, heq, -, -⟩ := factor_out_twos_eq_some n h
  exact ⟨by rw [heq]; rfl, factorLoop_zero⟩

/-- Witness for C10 at `n = 6`. -/
theorem c10_witness :
    1 ≤ 6 ∧ ((factor_out_twos 6).isSome = true ∧ divergesAt 0) :=
  ⟨by norm_num, c10_factor_termination 6 (by norm_num)⟩

end FindBigPrime
